import Mathlib

/-!
Shallow embedding of the vampyr BlueStore/BlueFS forensic analyzer
(src/vampyr/datatypes.py, src/vampyr/bluefs.py, src/vampyr/kv.py)
and proofs about its decoding and replay behaviour.

Bytes are modelled as `Nat` values (< 256 in every real input), byte
buffers as `List Nat`, Python `str` keys as `List Char`.
-/

/-! ### Byte cursor: `ByteHandler` (datatypes.py lines 497-567)

A `ByteHandler` wraps an owned byte buffer together with a cursor `p`.
The cursor setter raises `IndexError` when the new position would exceed
the buffer length, leaving `_p` untouched; `read` computes the slice
first and then moves the cursor through the setter, `seek` just moves
the cursor.  Failing calls are modelled by returning `none` as first
component together with the unchanged handler. -/

structure ByteHandler where
  mybytes : List Nat
  p : Nat
deriving DecidableEq

def ByteHandler.length (h : ByteHandler) : Nat :=
  h.mybytes.length

/-- The `p.setter` of `ByteHandler`: rejects positions past the end. -/
def ByteHandler.setP (h : ByteHandler) (value : Nat) : Option ByteHandler :=
  if value > h.length then none else some { h with p := value }

/-- `ByteHandler.read`: slice `mybytes[p : p+n]`, then `p += n` via the setter. -/
def ByteHandler.read (h : ByteHandler) (n : Nat) : Option (List Nat) × ByteHandler :=
  let r := (h.mybytes.drop h.p).take n
  match h.setP (h.p + n) with
  | none => (none, h)
  | some h2 => (some r, h2)

/-- `ByteHandler.seek`: `p = pos` via the setter. -/
def ByteHandler.seek (h : ByteHandler) (pos : Nat) : Option Unit × ByteHandler :=
  match h.setP pos with
  | none => (none, h)
  | some h2 => (some (), h2)

/-! ### Variable-length integers (datatypes.py `CephVarInteger`, lines 294-320)

Decoders are written against the byte list that starts at the cursor
position; they return the decoded value together with the number of
bytes consumed, or `none` when a read runs past the end of the buffer. -/

def varIntLoop : List Nat → Nat → Nat → Nat → Option (Nat × Nat)
  | [], _, _, _ => none
  | b :: rest, shift, acc, len =>
    let acc2 := acc + ((b &&& 0x7f) <<< shift)
    if b >>> 7 == 1 then
      varIntLoop rest (shift + 7) acc2 (len + 1)
    else
      some (acc2, len + 1)

def cephVarInteger (bs : List Nat) : Option (Nat × Nat) :=
  varIntLoop bs 0 0 0

/-- `CephVarIntegerLowz` (datatypes.py lines 323-334): decode a VarInt,
then shift out the two tag bits and re-shift by `lowznib * 4`. -/
def cephVarIntegerLowz (bs : List Nat) : Option (Nat × Nat) :=
  match cephVarInteger bs with
  | none => none
  | some (v, len) =>
    let lowznib := v &&& 3
    some ((v >>> 2) <<< (lowznib * 4), len)

/-! ### LBA-encoded integers (datatypes.py `CephLBA`, lines 337-378) -/

/-- The four-way classification of the initial 32-bit word in `CephLBA`:
initial value and initial continuation shift. -/
def lbaInit (word : Nat) : Nat × Nat :=
  let low_zero := word &&& 7
  if low_zero = 0 ∨ low_zero = 2 ∨ low_zero = 4 ∨ low_zero = 6 then
    ((word &&& 0x7ffffffe) <<< (12 - 1), 12 + 30)
  else if low_zero = 1 ∨ low_zero = 5 then
    ((word &&& 0x7ffffffc) <<< (16 - 2), 16 + 29)
  else if low_zero = 3 then
    ((word &&& 0x7ffffff8) <<< (20 - 3), 20 + 28)
  else
    ((word &&& 0x7ffffff8) >>> 3, 28)

/-- The continuation loop of `CephLBA`.  Exactly as in the source: the
loop variable `byte` is first masked with `0x7f` and shifted left by
`shift` and only then re-tested against `0x80` -- so after one
continuation byte the test is evaluated on the shifted value. -/
def lbaLoop : List Nat → Nat → Nat → Nat → Nat → Option (Nat × Nat)
  | [], byte, v, _, len =>
    if byte &&& 0x80 == 0x80 then none else some (v, len)
  | b :: rest, byte, v, shift, len =>
    if byte &&& 0x80 == 0x80 then
      lbaLoop rest ((b &&& 0x7f) <<< shift) (v ||| ((b &&& 0x7f) <<< shift))
        (shift + 7) (len + 1)
    else
      some (v, len)

/-- `CephLBA`: read a 32-bit little-endian word, classify by `word & 7`,
then run the continuation loop seeded with `word >> 24`. -/
def cephLBA (bs : List Nat) : Option (Nat × Nat) :=
  match bs with
  | b0 :: b1 :: b2 :: b3 :: rest =>
    let word := b0 + (b1 <<< 8) + (b2 <<< 16) + (b3 <<< 24)
    let iv := lbaInit word
    lbaLoop rest (word >>> 24) iv.1 iv.2 4
  | _ => none

/-! ### BlueFS in-memory state and transaction replay (bluefs.py)

The replay state mirrors the fields set up in `BlueFS.__init__`
(lines 24-45).  Python dicts are modelled as insertion-ordered
association lists (updating an existing key keeps its position, a new
key is appended at the end); `BlueFSExtent.__eq__` compares extents by
`offset` only, so extent membership and removal use offset equality. -/

structure BlueFSExtent where
  offset : Nat
  length : Nat
  bdev : Nat
deriving DecidableEq

structure BlueFSFile where
  ino : Nat
  size : Nat
  mtime : Nat
  extents : List BlueFSExtent
deriving DecidableEq

structure BlueFSDir where
  dirname : String
  ino_to_file_map : List (Nat × String)
deriving DecidableEq

structure BlueFS where
  initialized : Bool
  allocated_areas : List (Nat × Nat × Nat)
  allocated_ino : List Nat
  deallocated_ino : List Nat
  dirlist : List BlueFSDir
  allocated_extents : List BlueFSExtent
  deallocated_extents : List BlueFSExtent
  ino_to_file_map : List (Nat × BlueFSFile)
  next_offset : Nat
deriving DecidableEq

/-- Python dict assignment `d[k] = v`: update in place or append. -/
def assocSet {α β : Type} [DecidableEq α] : List (α × β) → α → β → List (α × β)
  | [], k, v => [(k, v)]
  | (k0, v0) :: rest, k, v =>
    if k0 = k then (k0, v) :: rest else (k0, v0) :: assocSet rest k v

/-- Python dict lookup `d[k]` / `k in d`. -/
def assocFind {α β : Type} [DecidableEq α] : List (α × β) → α → Option β
  | [], _ => none
  | (k0, v0) :: rest, k => if k0 = k then some v0 else assocFind rest k

/-- Python `del d[k]`. -/
def assocErase {α β : Type} [DecidableEq α] : List (α × β) → α → List (α × β)
  | [], _ => []
  | (k0, v0) :: rest, k => if k0 = k then rest else (k0, v0) :: assocErase rest k

/-- `e in l` for `BlueFSExtent` lists: `__eq__` compares by offset. -/
def extentIn (l : List BlueFSExtent) (e : BlueFSExtent) : Bool :=
  l.any (fun x => x.offset == e.offset)

/-- `l.remove(e)` for `BlueFSExtent` lists: drop the first extent whose
offset equals `e.offset`. -/
def extentErase : List BlueFSExtent → BlueFSExtent → List BlueFSExtent
  | [], _ => []
  | x :: rest, e => if x.offset = e.offset then rest else x :: extentErase rest e

/-- `BlueFSDir.link` (bluefs.py lines 254-255). -/
def BlueFSDir.link (d : BlueFSDir) (filename : String) (ino : Nat) : BlueFSDir :=
  { d with ino_to_file_map := assocSet d.ino_to_file_map ino filename }

/-- `BlueFSDir.unlink` (bluefs.py lines 257-266): find the first ino
mapped to `filename`; `if rm:` is false for ino 0, which is then not
removed; the trailing assert is the returned flag. -/
def BlueFSDir.unlink (d : BlueFSDir) (filename : String) : BlueFSDir × Bool :=
  let rm := (d.ino_to_file_map.find? (fun kv => kv.2 == filename)).map (fun kv => kv.1)
  let m := match rm with
    | some ino => if ino ≠ 0 then assocErase d.ino_to_file_map ino else d.ino_to_file_map
    | none => d.ino_to_file_map
  (⟨d.dirname, m⟩, !(m.any (fun kv => kv.2 == filename)))

/-- Errors raised while applying an operation: `AssertionError` (caught
by the replay loop) and `NotImplementedError` (not caught). -/
inductive OpErr where
  | assertFail
  | notImplemented
deriving DecidableEq

def BlueFS.op_init (s : BlueFS) : BlueFS × Option OpErr :=
  ({ s with initialized := true }, none)

def BlueFS.op_alloc_add (s : BlueFS) (id offset length : Nat) : BlueFS × Option OpErr :=
  if !s.initialized then (s, some .assertFail)
  else ({ s with allocated_areas := assocSet s.allocated_areas id (offset, length) }, none)

def BlueFS.op_alloc_rm (s : BlueFS) (_id _offset _length : Nat) : BlueFS × Option OpErr :=
  if !s.initialized then (s, some .assertFail) else (s, some .notImplemented)

/-- `BlueFS.op_dir_create` (bluefs.py lines 124-127).  The guard
`dirname not in self.dirlist` compares the string `dirname` against
`BlueFSDir` objects; Python cross-type equality makes every comparison
False, so the guard is always True and a fresh `BlueFSDir` is always
appended.  The always-False comparison is kept explicit below. -/
def BlueFS.op_dir_create (s : BlueFS) (dirname : String) : BlueFS × Option OpErr :=
  if !s.initialized then (s, some .assertFail)
  else if s.dirlist.any (fun _bfsdir => false) then (s, none)
  else ({ s with dirlist := s.dirlist ++ [⟨dirname, []⟩] }, none)

def BlueFS.op_dir_remove (s : BlueFS) (_dirname : String) : BlueFS × Option OpErr :=
  if !s.initialized then (s, some .assertFail) else (s, some .notImplemented)

def BlueFS.op_dir_link (s : BlueFS) (dirname filename : String) (ino : Nat) :
    BlueFS × Option OpErr :=
  if !s.initialized then (s, some .assertFail)
  else ({ s with dirlist := s.dirlist.map (fun d =>
    if d.dirname = dirname then d.link filename ino else d) }, none)

/-- The loop of `op_dir_unlink`: `unlink` on every matching dir, stopping
at the first failed assert (earlier removals are kept). -/
def unlinkDirs : List BlueFSDir → String → String → List BlueFSDir × Option OpErr
  | [], _, _ => ([], none)
  | d :: rest, dirname, filename =>
    if d.dirname = dirname then
      let p := d.unlink filename
      if p.2 then
        let q := unlinkDirs rest dirname filename
        (p.1 :: q.1, q.2)
      else (p.1 :: rest, some .assertFail)
    else
      let q := unlinkDirs rest dirname filename
      (d :: q.1, q.2)

def BlueFS.op_dir_unlink (s : BlueFS) (dirname filename : String) : BlueFS × Option OpErr :=
  if !s.initialized then (s, some .assertFail)
  else
    let q := unlinkDirs s.dirlist dirname filename
    ({ s with dirlist := q.1 }, q.2)

/-- The per-extent loop of `op_file_update` (bluefs.py lines 151-155)
acting on the pair (allocated_extents, deallocated_extents). -/
def updateExtentLists : List BlueFSExtent → List BlueFSExtent × List BlueFSExtent →
    List BlueFSExtent × List BlueFSExtent
  | [], p => p
  | e :: es, (alloc, dealloc) =>
    let alloc2 := if extentIn alloc e then alloc else alloc ++ [e]
    let dealloc2 := if extentIn dealloc e then extentErase dealloc e else dealloc
    updateExtentLists es (alloc2, dealloc2)

def BlueFS.op_file_update (s : BlueFS) (ino size mtime : Nat)
    (extents : List BlueFSExtent) : BlueFS × Option OpErr :=
  if !s.initialized then (s, some .assertFail)
  else
    let ai := if s.allocated_ino.contains ino then s.allocated_ino
              else s.allocated_ino ++ [ino]
    let di := if s.deallocated_ino.contains ino then s.deallocated_ino.erase ino
              else s.deallocated_ino
    let p := updateExtentLists extents (s.allocated_extents, s.deallocated_extents)
    let m := match assocFind s.ino_to_file_map ino with
      | none => s.ino_to_file_map ++ [(ino, ⟨ino, size, mtime, extents⟩)]
      | some _ => assocSet s.ino_to_file_map ino ⟨ino, size, mtime, extents⟩
    ({ s with allocated_ino := ai, deallocated_ino := di,
              allocated_extents := p.1, deallocated_extents := p.2,
              ino_to_file_map := m }, none)

/-- The per-extent loop of `op_file_remove` (bluefs.py lines 170-174). -/
def removeExtentLists : List BlueFSExtent → List BlueFSExtent × List BlueFSExtent →
    List BlueFSExtent × List BlueFSExtent
  | [], p => p
  | e :: es, (alloc, dealloc) =>
    let alloc2 := if extentIn alloc e then extentErase alloc e else alloc
    let dealloc2 := if extentIn dealloc e then dealloc else dealloc ++ [e]
    removeExtentLists es (alloc2, dealloc2)

/-- `BlueFS.op_file_remove` (bluefs.py lines 161-174): the ino lists are
updated before `assert(ino in self.ino_to_file_map)`, so a failing
assert keeps those partial updates. -/
def BlueFS.op_file_remove (s : BlueFS) (ino : Nat) : BlueFS × Option OpErr :=
  if !s.initialized then (s, some .assertFail)
  else
    let ai := if s.allocated_ino.contains ino then s.allocated_ino.erase ino
              else s.allocated_ino
    let di := if s.deallocated_ino.contains ino then s.deallocated_ino
              else s.deallocated_ino ++ [ino]
    let s2 := { s with allocated_ino := ai, deallocated_ino := di }
    match assocFind s2.ino_to_file_map ino with
    | none => (s2, some .assertFail)
    | some f =>
      let m := assocErase s2.ino_to_file_map ino
      let p := removeExtentLists f.extents (s2.allocated_extents, s2.deallocated_extents)
      ({ s2 with ino_to_file_map := m,
                 allocated_extents := p.1, deallocated_extents := p.2 }, none)

def BlueFS.op_jump (s : BlueFS) (_next_seq offset : Nat) : BlueFS × Option OpErr :=
  if !s.initialized then (s, some .assertFail)
  else if s.next_offset = 0 then ({ s with next_offset := offset }, none)
  else (s, none)

def BlueFS.op_jump_seq (s : BlueFS) (_next_seq : Nat) : BlueFS × Option OpErr :=
  if !s.initialized then (s, some .assertFail) else (s, some .notImplemented)

/-- Decoded BlueFS transaction operations, one constructor per opcode of
`BlueFSOperationCode`. -/
inductive BlueFSOp where
  | NONE
  | INIT
  | ALLOC_ADD (id offset length : Nat)
  | ALLOC_RM (id offset length : Nat)
  | DIR_LINK (dir file : String) (ino : Nat)
  | DIR_UNLINK (dir file : String)
  | DIR_CREATE (dir : String)
  | DIR_REMOVE (dir : String)
  | FILE_UPDATE (ino size mtime : Nat) (extents : List BlueFSExtent)
  | FILE_REMOVE (ino : Nat)
  | JUMP (next_seq offset : Nat)
  | JUMP_SEQ (next_seq : Nat)
deriving DecidableEq

/-- The dispatch performed while decoding a `BlueFSOperation`
(bluefs.py lines 463-537): opcode 0 touches nothing, every other opcode
invokes the corresponding `op_*` method. -/
def applyOp (s : BlueFS) : BlueFSOp → BlueFS × Option OpErr
  | .NONE => (s, none)
  | .INIT => s.op_init
  | .ALLOC_ADD id offset length => s.op_alloc_add id offset length
  | .ALLOC_RM id offset length => s.op_alloc_rm id offset length
  | .DIR_LINK dir file ino => s.op_dir_link dir file ino
  | .DIR_UNLINK dir file => s.op_dir_unlink dir file
  | .DIR_CREATE dir => s.op_dir_create dir
  | .DIR_REMOVE dir => s.op_dir_remove dir
  | .FILE_UPDATE ino size mtime extents => s.op_file_update ino size mtime extents
  | .FILE_REMOVE ino => s.op_file_remove ino
  | .JUMP next_seq offset => s.op_jump next_seq offset
  | .JUMP_SEQ next_seq => s.op_jump_seq next_seq

/-- `BlueFSTransaction` applies its operations in decode order; an
exception stops the remaining operations but keeps the mutations made so
far. -/
def applyOps : BlueFS → List BlueFSOp → BlueFS × Option OpErr
  | s, [] => (s, none)
  | s, op :: rest =>
    match applyOp s op with
    | (s2, some err) => (s2, some err)
    | (s2, none) => applyOps s2 rest

/-- One log block, as decoded: the operation list of its transaction and
whether the rest of the record (header bounds, uuid, crc position)
decoded cleanly.  A block whose header fails immediately is `⟨[], false⟩`. -/
structure BlueFSBlock where
  ops : List BlueFSOp
  decodeOk : Bool
deriving DecidableEq

/-- The replay accumulator: the state plus the `transactions` /
`skipped_transactions` tables keyed by block position. -/
structure ReplayAcc where
  state : BlueFS
  transactions : List (Nat × List BlueFSOp)
  skipped_transactions : List (Nat × List BlueFSOp)
deriving DecidableEq

/-- `self.next_offset = 0` performed before a non-skipped block is read
(bluefs.py line 85). -/
def clearNextOffset (s : BlueFS) : BlueFS :=
  { s with next_offset := 0 }

/-- One iteration of the block loop of `read_bluefs_extents`
(bluefs.py lines 79-91) together with `read_bluefs_transaction`
(lines 94-111): if `next_offset > logical_offset` the block is decoded
with `skip=True` (recorded in `skipped_transactions`), otherwise
`next_offset` is cleared and the block is recorded in `transactions`.
Decoding applies the transaction operations in both branches.
`VampyrMagicException` and `AssertionError` are caught (the block is
then recorded nowhere); `NotImplementedError` is not caught and aborts
the replay. -/
def processBlock (acc : ReplayAcc) (logical_offset : Nat) (blk : BlueFSBlock) :
    Option ReplayAcc :=
  if acc.state.next_offset > logical_offset then
    match applyOps acc.state blk.ops with
    | (_, some .notImplemented) => none
    | (s2, some .assertFail) => some { acc with state := s2 }
    | (s2, none) =>
      if blk.decodeOk then
        some { acc with
               state := s2
               skipped_transactions :=
                 acc.skipped_transactions ++ [(logical_offset, blk.ops)] }
      else some { acc with state := s2 }
  else
    match applyOps (clearNextOffset acc.state) blk.ops with
    | (_, some .notImplemented) => none
    | (s2, some .assertFail) => some { acc with state := s2 }
    | (s2, none) =>
      if blk.decodeOk then
        some { acc with
               state := s2
               transactions := acc.transactions ++ [(logical_offset, blk.ops)] }
      else some { acc with state := s2 }

/-- The block loop: blocks live at logical offsets `0, blocksize, ...`. -/
def processBlocks (blocksize : Nat) : ReplayAcc → Nat → List BlueFSBlock → Option ReplayAcc
  | acc, _, [] => some acc
  | acc, lo, blk :: rest =>
    match processBlock acc lo blk with
    | none => none
    | some acc2 => processBlocks blocksize acc2 (lo + blocksize) rest

/-- `BlueFS._validate_extent_location` (bluefs.py lines 60-71). -/
def BlueFS.validate_extent_location (s : BlueFS) : Bool :=
  s.allocated_extents.all (fun e =>
    s.allocated_areas.any (fun a =>
      decide (a.2.1 ≤ e.offset) && decide (e.offset + e.length ≤ a.2.1 + a.2.2)))

/-- The state set up by `BlueFS.__init__` before replay: everything
empty, the log fnode (ino 1) pre-registered in `ino_to_file_map`. -/
def initialBlueFS (log_fnode : BlueFSFile) : BlueFS :=
  { initialized := false, allocated_areas := [], allocated_ino := [],
    deallocated_ino := [], dirlist := [],
    allocated_extents := [], deallocated_extents := [],
    ino_to_file_map := [(log_fnode.ino, log_fnode)], next_offset := 0 }

/-- The replay of `BlueFS.__init__`: process the decoded log blocks in
on-disk order, then `assert(self._validate_extent_location())`. -/
def bluefsReplay (log_fnode : BlueFSFile) (blocksize : Nat)
    (blocks : List BlueFSBlock) : Option ReplayAcc :=
  match processBlocks blocksize ⟨initialBlueFS log_fnode, [], []⟩ 0 blocks with
  | none => none
  | some acc => if acc.state.validate_extent_location then some acc else none

/-! ### Extent bookkeeping invariants (for C1) -/

def offsetsOf (l : List BlueFSExtent) : List Nat :=
  l.map BlueFSExtent.offset

/-- No offset occurs in both lists (Python `in` on these lists compares
extents by offset). -/
def ExtDisjoint (alloc dealloc : List BlueFSExtent) : Prop :=
  ∀ a ∈ alloc, ∀ b ∈ dealloc, a.offset ≠ b.offset

/-- Invariant on the pair (allocated_extents, deallocated_extents):
disjoint by offset, and no duplicate offsets within either list. -/
def pairInv (p : List BlueFSExtent × List BlueFSExtent) : Prop :=
  ExtDisjoint p.1 p.2 ∧ (offsetsOf p.1).Nodup ∧ (offsetsOf p.2).Nodup

def ExtInv (s : BlueFS) : Prop :=
  pairInv (s.allocated_extents, s.deallocated_extents)

instance (A D : List BlueFSExtent) : Decidable (ExtDisjoint A D) := by
  unfold ExtDisjoint
  infer_instance

instance (p : List BlueFSExtent × List BlueFSExtent) : Decidable (pairInv p) := by
  unfold pairInv
  infer_instance

instance (s : BlueFS) : Decidable (ExtInv s) := by
  unfold ExtInv
  infer_instance

/-- A one-block log declaring an allocator region and a file inside it. -/
def regionBlocks : List BlueFSBlock :=
  [⟨[.INIT, .ALLOC_ADD 1 100 50, .FILE_UPDATE 2 10 0 [⟨110, 10, 1⟩]], true⟩]

/-- The accumulator produced by replaying `regionBlocks`. -/
def regionAcc : ReplayAcc :=
  ⟨{ initialized := true, allocated_areas := [(1, 100, 50)], allocated_ino := [2],
     deallocated_ino := [], dirlist := [],
     allocated_extents := [⟨110, 10, 1⟩], deallocated_extents := [],
     ino_to_file_map := [(1, ⟨1, 0, 0, []⟩), (2, ⟨2, 10, 0, [⟨110, 10, 1⟩]⟩)],
     next_offset := 0 },
   [(0, [.INIT, .ALLOC_ADD 1 100 50, .FILE_UPDATE 2 10 0 [⟨110, 10, 1⟩]])], []⟩

/-- A three-block log whose first block jumps to offset 2 (blocksize 1):
the middle block is then skipped, yet carries a DIR_CREATE. -/
def jumpBlocks : List BlueFSBlock :=
  [⟨[.INIT, .JUMP 1 2], true⟩, ⟨[.DIR_CREATE "db"], true⟩, ⟨[], true⟩]

/-- `jumpBlocks` with the skipped block's operations removed. -/
def jumpBlocksEmptied : List BlueFSBlock :=
  [⟨[.INIT, .JUMP 1 2], true⟩, ⟨[], true⟩, ⟨[], true⟩]

/-- A tiny initialized state with a pending jump target, and the
accumulators before and after processing one empty skipped block. -/
def wAccState : BlueFS :=
  { (initialBlueFS ⟨1, 0, 0, []⟩).op_init.1 with next_offset := 5 }

def wAcc : ReplayAcc := ⟨wAccState, [], []⟩

def wAcc2 : ReplayAcc := ⟨wAccState, [], [(0, [])]⟩

/-! ### Object extraction (kv.py `KVONode.extract`, lines 1065-1094)

The backing image is a byte list; `readImg` is a seek+read on it.
`KVBlob.read` concatenates the contents of the blob's (valid) physical
extents; `LExtent.read` splits that content into the first `length`
bytes (body) and the rest (slack).  The destination file handle is a
byte list plus write position with POSIX semantics: writing past the end
zero-fills the gap. -/

def readImg (image : List Nat) (off len : Nat) : List Nat :=
  (image.drop off).take len

structure KVPExtent where
  offset : Nat
  length : Nat
deriving DecidableEq

structure KVBlob where
  extents : List KVPExtent
deriving DecidableEq

def KVPExtent.read (image : List Nat) (pe : KVPExtent) : List Nat :=
  readImg image pe.offset pe.length

def KVBlob.read (image : List Nat) (b : KVBlob) : List Nat :=
  (b.extents.map (KVPExtent.read image)).flatten

structure KVLExtent where
  logical_offset : Nat
  blob_offset : Nat
  length : Nat
  blob : KVBlob
deriving DecidableEq

/-- `LExtent.read` (kv.py lines 1233-1235): note `blob_offset` is not
used by the source either. -/
def KVLExtent.read (image : List Nat) (le : KVLExtent) : List Nat × List Nat :=
  let content := le.blob.read image
  (content.take le.length, content.drop le.length)

structure KVONode where
  size : Nat
  lextents : List KVLExtent
deriving DecidableEq

structure WFile where
  data : List Nat
  pos : Nat
deriving DecidableEq

def WFile.seek (f : WFile) (p : Nat) : WFile :=
  { f with pos := p }

def WFile.write (f : WFile) (bs : List Nat) : WFile :=
  let d := if f.data.length < f.pos then
             f.data ++ List.replicate (f.pos - f.data.length) 0
           else f.data
  { data := d.take f.pos ++ bs ++ d.drop (f.pos + bs.length),
    pos := f.pos + bs.length }

/-- The per-extent loop of `extract`: seek to the logical offset, split
the blob content, update the digest input and the slack file, write the
body chunk. -/
def extractLoop (image : List Nat) :
    List KVLExtent → WFile → List Nat → List Nat → WFile × List Nat × List Nat
  | [], f, slack, md5acc => (f, slack, md5acc)
  | le :: rest, f, slack, md5acc =>
    let f2 := (f.seek le.logical_offset).write (le.read image).1
    extractLoop image rest f2 (slack ++ (le.read image).2)
      (md5acc ++ (le.read image).1)

/-- `KVONode.extract`: after the loop, `missing = size - tell()` is
zero-padded when positive and `assert(write.tell() == self.size)` gates
success.  Returns (body file contents, slack stream, digest input). -/
def KVONode.extract (image : List Nat) (o : KVONode) :
    Option (List Nat × List Nat × List Nat) :=
  let t := extractLoop image o.lextents ⟨[], 0⟩ [] []
  let missing : Int := (o.size : Int) - (t.1.pos : Int)
  let f2 := if missing > 0 then t.1.write (List.replicate (o.size - t.1.pos) 0) else t.1
  let md5 := if missing > 0 then t.2.2 ++ List.replicate (o.size - t.1.pos) 0 else t.2.2
  if f2.pos = o.size then some (f2.data, t.2.1, md5) else none

/-- Claim-side ordering of the logical extents: each extent begins at or
after the end of what was written so far. -/
def orderedFrom (image : List Nat) : List KVLExtent → Nat → Bool
  | [], _ => true
  | le :: rest, low =>
    decide (low ≤ le.logical_offset) &&
      orderedFrom image rest (le.logical_offset + ((le.read image).1).length)

/-- Claim-side assembly of the body: each extent contributes the first
`length` bytes of its blob content at its logical offset, gaps between
extents are zero bytes. -/
def specAssemble (image : List Nat) : List KVLExtent → Nat → List Nat
  | [], _ => []
  | le :: rest, low =>
    List.replicate (le.logical_offset - low) 0 ++ (le.read image).1 ++
      specAssemble image rest (le.logical_offset + ((le.read image).1).length)

/-- A one-extent onode of size 5 over a 3-byte blob. -/
def extOnode : KVONode := ⟨5, [⟨0, 0, 3, ⟨[⟨0, 3⟩]⟩⟩]⟩

/-! ### BlueFS file extraction (bluefs.py `BlueFSFile.mkfile`, lines 306-350)

The body file, slack file and digest input are modelled as the byte
streams written to them.  `bsize` starts at the file size; once it
reaches zero the loop `break`s at the top of the next iteration, so an
extent that lies entirely past the logical end of the file contributes
nothing, not even to the slack stream. -/

def mkfileLoop (osd : List Nat) : List BlueFSExtent → Nat →
    List Nat × List Nat × List Nat × Nat
  | [], bsize => ([], [], [], bsize)
  | e :: rest, bsize =>
    if bsize = 0 then ([], [], [], 0)
    else if bsize ≤ e.length then
      -- body chunk `o.read(bsize)`, then slack `o.read(length - bsize)`;
      -- the loop goes on but the next iteration breaks at `bsize == 0`
      (readImg osd e.offset bsize,
       readImg osd (e.offset + bsize) (e.length - bsize),
       readImg osd e.offset bsize, 0)
    else
      let t := mkfileLoop osd rest (bsize - e.length)
      (readImg osd e.offset e.length ++ t.1, t.2.1,
       readImg osd e.offset e.length ++ t.2.2.1, t.2.2.2)

/-- `BlueFSFile.mkfile`: returns (body, slack, digest input) when the
final `assert(bsize == 0)` passes. -/
def BlueFSFile.mkfile (osd : List Nat) (f : BlueFSFile) :
    Option (List Nat × List Nat × List Nat) :=
  let t := mkfileLoop osd f.extents f.size
  if t.2.2.2 = 0 then some (t.1, t.2.1, t.2.2.1) else none

/-- The concatenation of the contents of a file's extents. -/
def extentsConcat (osd : List Nat) (extents : List BlueFSExtent) : List Nat :=
  (extents.map (fun e => readImg osd e.offset e.length)).flatten

/-! ### KV loader: the RocksDB dump tables (kv.py `RDBKV.datasets`,
lines 92-110)

A matched dump line carries the hex key (as a char list), `seq`, `type`
and the hex value.  The per-prefix tables start from ten fixed buckets;
a line whose key's second hex byte is not "00" fails the assert, an
unknown bucket raises `KeyError`; an existing row for the same exact key
is kept when its stored `seq` is strictly greater, otherwise the new row
replaces it. -/

structure DumpLine where
  k : List Char
  seq : Nat
  t : Nat
  v : List Char
deriving DecidableEq

/-- One hex digit, as accepted by Python `int(_, 16)` (48-57 are the
digits, 65-70 upper-case A-F, 97-102 lower-case a-f). -/
def hexVal (c : Char) : Option Nat :=
  let n := c.toNat
  if 48 ≤ n ∧ n ≤ 57 then some (n - 48)
  else if 65 ≤ n ∧ n ≤ 70 then some (n - 55)
  else if 97 ≤ n ∧ n ≤ 102 then some (n - 87)
  else none

/-- `chr(int(k[0:2], 16))`: the bucket character of a key. -/
def prefixOfKey (k : List Char) : Option Char :=
  match k with
  | [] => none
  | [c1] => (hexVal c1).map Char.ofNat
  | c1 :: c2 :: _ =>
    match hexVal c1, hexVal c2 with
    | some h1, some h2 => some (Char.ofNat (16 * h1 + h2))
    | _, _ => none

/-- A stored row: `(value, seq, type)`. -/
abbrev RowVal := List Char × Nat × Nat

abbrev DataSets := List (Char × List (List Char × RowVal))

def emptyDatasets : DataSets :=
  [('O', []), ('S', []), ('T', []), ('C', []), ('M', []),
   ('P', []), ('B', []), ('b', []), ('L', []), ('X', [])]

/-- `self._datasets[prefix][k] = (v, seq, t)`. -/
def dsInsertRow (ds : DataSets) (pfx : Char) (k : List Char) (val : RowVal) :
    DataSets :=
  ds.map (fun b => if b.1 = pfx then (b.1, assocSet b.2 k val) else b)

/-- One iteration of the line loop of `datasets`. -/
def processLine (ds : DataSets) (l : DumpLine) : Option DataSets :=
  if (l.k.drop 2).take 2 ≠ ['0', '0'] then none
  else
    match prefixOfKey l.k with
    | none => none
    | some pfx =>
      match assocFind ds pfx with
      | none => none
      | some bucket =>
        match assocFind bucket l.k with
        | some old =>
          if old.2.1 > l.seq then some ds
          else some (dsInsertRow ds pfx l.k (l.v, l.seq, l.t))
        | none => some (dsInsertRow ds pfx l.k (l.v, l.seq, l.t))

def loadLines : List DumpLine → DataSets → Option DataSets
  | [], ds => some ds
  | l :: rest, ds =>
    match processLine ds l with
    | none => none
    | some ds2 => loadLines rest ds2

/-- `RDBKV.datasets` applied to the already-matched dump lines. -/
def RDBKV_datasets (lines : List DumpLine) : Option DataSets :=
  loadLines lines emptyDatasets

/-- The retained row for an exact key. -/
def dsFind (ds : DataSets) (k : List Char) : Option RowVal :=
  match prefixOfKey k with
  | none => none
  | some pfx =>
    match assocFind ds pfx with
    | none => none
    | some bucket => assocFind bucket k

/-- A key with prefix byte 0x4F = 'O' and the required "00" second byte. -/
def dumpKey : List Char := ['4', 'F', '0', '0', 'A', 'B']

def dumpLines : List DumpLine :=
  [⟨dumpKey, 9, 1, ['B', 'B']⟩, ⟨dumpKey, 5, 1, ['A', 'A']⟩]

def dumpOut : DataSets :=
  [('O', [(dumpKey, (['B', 'B'], 9, 1))]), ('S', []), ('T', []), ('C', []),
   ('M', []), ('P', []), ('B', []), ('b', []), ('L', []), ('X', [])]

/-! ### Theorems on the primitive decoders -/

/-- C7: for every byte sequence on which the underlying VarInt decodes to
`raw` (consuming `len` bytes), the VarIntLowZ decoder yields
`(raw >>> 2) <<< ((raw &&& 3) * 4)` on the same bytes; in particular the
single byte `0x1C` (raw 28) decodes to 7 and `0x1F` (raw 31) to 28672. -/
theorem cephVarIntegerLowz_eq_shifted (bs : List Nat) (raw len : Nat)
    (h : cephVarInteger bs = some (raw, len)) :
    cephVarIntegerLowz bs = some ((raw >>> 2) <<< ((raw &&& 3) * 4), len) ∧
    cephVarIntegerLowz [0x1C] = some (7, 1) ∧
    cephVarIntegerLowz [0x1F] = some (28672, 1) := by
  refine ⟨?_, by decide, by decide⟩
  simp [cephVarIntegerLowz, h]

theorem cephVarIntegerLowz_eq_shifted_witness :
    cephVarIntegerLowz [0x1F] = some ((31 >>> 2) <<< ((31 &&& 3) * 4), 1) :=
  (cephVarIntegerLowz_eq_shifted [0x1F] 31 1 (by decide)).1

theorem lbaLoop_stop (bs : List Nat) (byte v shift len : Nat)
    (h : byte &&& 0x80 ≠ 0x80) : lbaLoop bs byte v shift len = some (v, len) := by
  cases bs <;> simp [lbaLoop, h]

/-- C8: when the fourth byte of the initial 32-bit little-endian word has
its high bit clear, the decoded LBA value is given by the four-way
classification of `w &&& 7` and the byte length is 4; the single word
`0x00000008` decodes to `0x4000` with length 4.  The last conjunct
evaluates the decoder on a word whose fourth byte is `0x80` followed by
the continuation bytes `0x80 0x01`: the source re-tests the high bit on
the masked-and-shifted loop variable, so it consumes exactly one
continuation byte (length 5) and never extends past it, contradicting
the claimed while-high-bit-set extension. -/
theorem cephLBA_no_continuation (b0 b1 b2 b3 : Nat) (rest : List Nat)
    (h0 : b0 < 256) (h1 : b1 < 256) (h2 : b2 < 256) (_h3 : b3 < 256)
    (hb : b3 &&& 0x80 = 0) :
    (cephLBA (b0 :: b1 :: b2 :: b3 :: rest) =
      some (((fun w =>
        if w &&& 7 = 0 ∨ w &&& 7 = 2 ∨ w &&& 7 = 4 ∨ w &&& 7 = 6 then
          (w &&& 0x7ffffffe) <<< 11
        else if w &&& 7 = 1 ∨ w &&& 7 = 5 then
          (w &&& 0x7ffffffc) <<< 14
        else if w &&& 7 = 3 then
          (w &&& 0x7ffffff8) <<< 17
        else
          (w &&& 0x7ffffff8) >>> 3) (b0 + (b1 <<< 8) + (b2 <<< 16) + (b3 <<< 24))), 4)) ∧
    cephLBA [0x08, 0, 0, 0] = some (0x4000, 4) ∧
    cephLBA [0x08, 0, 0, 0x80, 0x80, 0x01] = some (0x4000, 5) := by
  refine ⟨?_, by decide, by decide⟩
  have hw24 : (b0 + (b1 <<< 8) + (b2 <<< 16) + (b3 <<< 24)) >>> 24 = b3 := by
    simp only [Nat.shiftLeft_eq, Nat.shiftRight_eq_div_pow]
    norm_num
    omega
  simp only [cephLBA, hw24]
  rw [lbaLoop_stop _ _ _ _ _ (by simp [hb])]
  norm_num [lbaInit]
  split_ifs <;> rfl

theorem cephLBA_no_continuation_witness :
    cephLBA [0x08, 0, 0, 0] = some ((8 &&& 0x7ffffffe) <<< 11, 4) := by
  have h := cephLBA_no_continuation 8 0 0 0 []
    (by decide) (by decide) (by decide) (by decide) (by decide)
  exact h.1.trans (by decide)

theorem extentIn_true_iff (l : List BlueFSExtent) (e : BlueFSExtent) :
    extentIn l e = true ↔ e.offset ∈ offsetsOf l := by
  simp only [extentIn, List.any_eq_true, beq_iff_eq, offsetsOf, List.mem_map]

theorem nodup_offsets_concat {A : List BlueFSExtent} {e : BlueFSExtent}
    (ha : (offsetsOf A).Nodup) (he : e.offset ∉ offsetsOf A) :
    (offsetsOf (A ++ [e])).Nodup := by
  simp only [offsetsOf, List.map_append, List.map_singleton]
  rw [List.nodup_append]
  refine ⟨ha, List.nodup_singleton _, ?_⟩
  intro x hx hx2
  have hxe : x = e.offset := List.mem_singleton.1 hx2
  subst hxe
  exact he hx

theorem mem_extentErase {b : BlueFSExtent} {l : List BlueFSExtent} {e : BlueFSExtent}
    (hb : b ∈ extentErase l e) : b ∈ l := by
  induction l with
  | nil => simp [extentErase] at hb
  | cons x rest ih =>
    simp only [extentErase] at hb
    by_cases hx : x.offset = e.offset
    · rw [if_pos hx] at hb
      exact List.mem_cons_of_mem _ hb
    · rw [if_neg hx] at hb
      rcases List.mem_cons.1 hb with h | h
      · exact h ▸ List.mem_cons_self _ _
      · exact List.mem_cons_of_mem _ (ih h)

theorem offsetsOf_extentErase (l : List BlueFSExtent) (e : BlueFSExtent) :
    offsetsOf (extentErase l e) = (offsetsOf l).erase e.offset := by
  induction l with
  | nil => rfl
  | cons x rest ih =>
    by_cases hx : x.offset = e.offset
    · simp [extentErase, offsetsOf, List.erase_cons, hx]
    · simp only [extentErase, if_neg hx, offsetsOf, List.map_cons, List.erase_cons]
      rw [if_neg (by simpa using hx)]
      exact congrArg (x.offset :: ·) ih

theorem updateStep (e : BlueFSExtent) (A D : List BlueFSExtent)
    (h : pairInv (A, D)) :
    pairInv ((if extentIn A e then A else A ++ [e]),
             (if extentIn D e then extentErase D e else D)) := by
  obtain ⟨hd, ha, hb⟩ := h
  by_cases h1 : extentIn A e = true
  · -- e already allocated; by disjointness it cannot be in D
    have he : e.offset ∈ offsetsOf A := (extentIn_true_iff A e).1 h1
    obtain ⟨a, haA, hae⟩ := by simpa [offsetsOf, List.mem_map] using he
    by_cases h2 : extentIn D e = true
    · exfalso
      have heD : e.offset ∈ offsetsOf D := (extentIn_true_iff D e).1 h2
      obtain ⟨b, hbD, hbe⟩ := by simpa [offsetsOf, List.mem_map] using heD
      exact hd a haA b hbD (hae.trans hbe.symm)
    · simpa [h1, h2] using ⟨hd, ha, hb⟩
  · have heA : e.offset ∉ offsetsOf A := fun hc => h1 ((extentIn_true_iff A e).2 hc)
    by_cases h2 : extentIn D e = true
    · simp only [h1, h2, if_true, if_false]
      refine ⟨?_, ?_, ?_⟩
      · intro a haA b hbD
        have hbD0 : b ∈ D := mem_extentErase hbD
        have hbo : b.offset ∈ (offsetsOf D).erase e.offset := by
          rw [← offsetsOf_extentErase]
          exact List.mem_map_of_mem _ hbD
        have hbne : b.offset ≠ e.offset := ((hb.mem_erase_iff).1 hbo).1
        rcases List.mem_append.1 haA with hA | hsing
        · exact hd a hA b hbD0
        · have : a = e := by simpa using hsing
          rw [this]
          exact fun hc => hbne hc.symm
      · exact nodup_offsets_concat ha heA
      · rw [offsetsOf_extentErase]
        exact hb.erase _
    · simp only [h1, h2, if_false]
      refine ⟨?_, ?_, hb⟩
      · intro a haA b hbD
        have heD : e.offset ∉ offsetsOf D := fun hc => h2 ((extentIn_true_iff D e).2 hc)
        rcases List.mem_append.1 haA with hA | hsing
        · exact hd a hA b hbD
        · have : a = e := by simpa using hsing
          rw [this]
          exact fun hc => heD (hc ▸ List.mem_map_of_mem _ hbD)
      · exact nodup_offsets_concat ha heA

theorem removeStep (e : BlueFSExtent) (A D : List BlueFSExtent)
    (h : pairInv (A, D)) :
    pairInv ((if extentIn A e then extentErase A e else A),
             (if extentIn D e then D else D ++ [e])) := by
  obtain ⟨hd, ha, hb⟩ := h
  by_cases h2 : extentIn D e = true
  · -- e already deallocated; by disjointness it cannot be in A
    have heD : e.offset ∈ offsetsOf D := (extentIn_true_iff D e).1 h2
    obtain ⟨b, hbD, hbe⟩ := by simpa [offsetsOf, List.mem_map] using heD
    by_cases h1 : extentIn A e = true
    · exfalso
      have heA : e.offset ∈ offsetsOf A := (extentIn_true_iff A e).1 h1
      obtain ⟨a, haA, hae⟩ := by simpa [offsetsOf, List.mem_map] using heA
      exact hd a haA b hbD (hae.trans hbe.symm)
    · simpa [h1, h2] using ⟨hd, ha, hb⟩
  · have heD : e.offset ∉ offsetsOf D := fun hc => h2 ((extentIn_true_iff D e).2 hc)
    by_cases h1 : extentIn A e = true
    · simp only [h1, h2, if_true, if_false]
      refine ⟨?_, ?_, ?_⟩
      · intro a haA b hbD
        have haA0 : a ∈ A := mem_extentErase haA
        rcases List.mem_append.1 hbD with hD | hsing
        · exact hd a haA0 b hD
        · have hbo : a.offset ∈ (offsetsOf A).erase e.offset := by
            rw [← offsetsOf_extentErase]
            exact List.mem_map_of_mem _ haA
          have hane : a.offset ≠ e.offset := ((ha.mem_erase_iff).1 hbo).1
          have : b = e := by simpa using hsing
          rw [this]
          exact hane
      · rw [offsetsOf_extentErase]
        exact ha.erase _
      · exact nodup_offsets_concat hb heD
    · simp only [h1, h2, if_false]
      refine ⟨?_, ha, ?_⟩
      · intro a haA b hbD
        have heA : e.offset ∉ offsetsOf A := fun hc => h1 ((extentIn_true_iff A e).2 hc)
        rcases List.mem_append.1 hbD with hD | hsing
        · exact hd a haA b hD
        · have : b = e := by simpa using hsing
          rw [this]
          exact fun hc => heA (hc ▸ List.mem_map_of_mem _ haA)
      · exact nodup_offsets_concat hb heD

theorem updateExtentLists_pairInv (es : List BlueFSExtent)
    (p : List BlueFSExtent × List BlueFSExtent) (h : pairInv p) :
    pairInv (updateExtentLists es p) := by
  induction es generalizing p with
  | nil => exact h
  | cons e es ih =>
    rcases p with ⟨A, D⟩
    exact ih _ (updateStep e A D h)

theorem removeExtentLists_pairInv (es : List BlueFSExtent)
    (p : List BlueFSExtent × List BlueFSExtent) (h : pairInv p) :
    pairInv (removeExtentLists es p) := by
  induction es generalizing p with
  | nil => exact h
  | cons e es ih =>
    rcases p with ⟨A, D⟩
    exact ih _ (removeStep e A D h)

theorem applyOp_ExtInv (s : BlueFS) (op : BlueFSOp) (h : ExtInv s) :
    ExtInv (applyOp s op).1 := by
  cases op with
  | NONE => exact h
  | INIT => exact h
  | ALLOC_ADD id offset length =>
    simp only [applyOp, BlueFS.op_alloc_add]
    split <;> exact h
  | ALLOC_RM id offset length =>
    simp only [applyOp, BlueFS.op_alloc_rm]
    split <;> exact h
  | DIR_LINK dir file ino =>
    simp only [applyOp, BlueFS.op_dir_link]
    split <;> exact h
  | DIR_UNLINK dir file =>
    simp only [applyOp, BlueFS.op_dir_unlink]
    split <;> exact h
  | DIR_CREATE dir =>
    simp only [applyOp, BlueFS.op_dir_create]
    split
    · exact h
    · split <;> exact h
  | DIR_REMOVE dir =>
    simp only [applyOp, BlueFS.op_dir_remove]
    split <;> exact h
  | FILE_UPDATE ino size mtime extents =>
    simp only [applyOp, BlueFS.op_file_update]
    split
    · exact h
    · exact updateExtentLists_pairInv extents
        (s.allocated_extents, s.deallocated_extents) h
  | FILE_REMOVE ino =>
    simp only [applyOp, BlueFS.op_file_remove]
    split
    · exact h
    · split
      · exact h
      · exact removeExtentLists_pairInv _
          (s.allocated_extents, s.deallocated_extents) h
  | JUMP next_seq offset =>
    simp only [applyOp, BlueFS.op_jump]
    split
    · exact h
    · split <;> exact h
  | JUMP_SEQ next_seq =>
    simp only [applyOp, BlueFS.op_jump_seq]
    split <;> exact h

theorem applyOps_ExtInv (ops : List BlueFSOp) (s : BlueFS) (h : ExtInv s) :
    ExtInv (applyOps s ops).1 := by
  induction ops generalizing s with
  | nil => exact h
  | cons op rest ih =>
    simp only [applyOps]
    rcases hap : applyOp s op with ⟨s2, e⟩
    have h2 : ExtInv s2 := by
      have hx := applyOp_ExtInv s op h
      rw [hap] at hx
      exact hx
    cases e with
    | none => exact ih s2 h2
    | some err => exact h2

theorem processBlock_ExtInv (acc : ReplayAcc) (lo : Nat) (blk : BlueFSBlock)
    (acc2 : ReplayAcc) (h : ExtInv acc.state)
    (hp : processBlock acc lo blk = some acc2) : ExtInv acc2.state := by
  unfold processBlock at hp
  by_cases hlt : acc.state.next_offset > lo
  · rw [if_pos hlt] at hp
    rcases hap : applyOps acc.state blk.ops with ⟨s2, e⟩
    rw [hap] at hp
    have h2 : ExtInv s2 := by
      have hx := applyOps_ExtInv blk.ops acc.state h
      rw [hap] at hx
      exact hx
    cases e with
    | none =>
      by_cases hok : blk.decodeOk = true
      · simp only [hok] at hp
        simp only [if_true, Option.some.injEq] at hp
        subst hp
        exact h2
      · simp only [Bool.not_eq_true] at hok
        simp only [hok, Bool.false_eq_true, if_false, Option.some.injEq] at hp
        subst hp
        exact h2
    | some err =>
      cases err with
      | assertFail =>
        simp only [Option.some.injEq] at hp
        subst hp
        exact h2
      | notImplemented => simp at hp
  · rw [if_neg hlt] at hp
    rcases hap : applyOps (clearNextOffset acc.state) blk.ops with ⟨s2, e⟩
    rw [hap] at hp
    have h2 : ExtInv s2 := by
      have hx := applyOps_ExtInv blk.ops (clearNextOffset acc.state) h
      rw [hap] at hx
      exact hx
    cases e with
    | none =>
      by_cases hok : blk.decodeOk = true
      · simp only [hok] at hp
        simp only [if_true, Option.some.injEq] at hp
        subst hp
        exact h2
      · simp only [Bool.not_eq_true] at hok
        simp only [hok, Bool.false_eq_true, if_false, Option.some.injEq] at hp
        subst hp
        exact h2
    | some err =>
      cases err with
      | assertFail =>
        simp only [Option.some.injEq] at hp
        subst hp
        exact h2
      | notImplemented => simp at hp

theorem processBlocks_ExtInv (bs : Nat) (blocks : List BlueFSBlock)
    (acc : ReplayAcc) (lo : Nat) (acc2 : ReplayAcc) (h : ExtInv acc.state)
    (hp : processBlocks bs acc lo blocks = some acc2) : ExtInv acc2.state := by
  induction blocks generalizing acc lo with
  | nil =>
    simp only [processBlocks, Option.some.injEq] at hp
    subst hp
    exact h
  | cons blk rest ih =>
    simp only [processBlocks] at hp
    rcases hq : processBlock acc lo blk with _ | acc3
    · rw [hq] at hp
      simp at hp
    · rw [hq] at hp
      exact ih acc3 (lo + bs) (processBlock_ExtInv acc lo blk acc3 h hq) hp

theorem initialBlueFS_ExtInv (log : BlueFSFile) : ExtInv (initialBlueFS log) := by
  refine ⟨?_, ?_, ?_⟩ <;> simp [initialBlueFS, ExtDisjoint, offsetsOf]

/-- C1: (a) whenever the replay (which ends with
`assert(self._validate_extent_location())`) returns, every extent of
`allocated_extents` lies inside some declared allocator region, and
`allocated_extents` and `deallocated_extents` share no offset;
(b) `op_file_update` and (c) `op_file_remove` preserve this offset
disjointness from any state satisfying the extent invariant. -/
theorem bluefs_replay_extent_invariants :
    (∀ log bs blocks acc, bluefsReplay log bs blocks = some acc →
      (∀ e ∈ acc.state.allocated_extents, ∃ a ∈ acc.state.allocated_areas,
         a.2.1 ≤ e.offset ∧ e.offset + e.length ≤ a.2.1 + a.2.2) ∧
      (∀ e ∈ acc.state.allocated_extents, ∀ d ∈ acc.state.deallocated_extents,
         e.offset ≠ d.offset)) ∧
    (∀ s ino size mtime extents, ExtInv s →
       ∀ e ∈ ((s.op_file_update ino size mtime extents).1).allocated_extents,
       ∀ d ∈ ((s.op_file_update ino size mtime extents).1).deallocated_extents,
         e.offset ≠ d.offset) ∧
    (∀ s ino, ExtInv s →
       ∀ e ∈ ((s.op_file_remove ino).1).allocated_extents,
       ∀ d ∈ ((s.op_file_remove ino).1).deallocated_extents,
         e.offset ≠ d.offset) := by
  refine ⟨?_, ?_, ?_⟩
  · intro log bs blocks acc hrep
    unfold bluefsReplay at hrep
    split at hrep
    · exact Option.noConfusion hrep
    · rename_i acc0 hq
      split at hrep
      · rename_i hv
        injection hrep with hrep2
        subst hrep2
        constructor
        · intro e he
          simp only [BlueFS.validate_extent_location, List.all_eq_true,
            List.any_eq_true, Bool.and_eq_true, decide_eq_true_eq] at hv
          exact hv e he
        · exact (processBlocks_ExtInv bs blocks ⟨initialBlueFS log, [], []⟩ 0 acc0
            (initialBlueFS_ExtInv log) hq).1
      · exact Option.noConfusion hrep
  · intro s ino size mtime extents h
    exact (applyOp_ExtInv s (.FILE_UPDATE ino size mtime extents) h).1
  · intro s ino h
    exact (applyOp_ExtInv s (.FILE_REMOVE ino) h).1

theorem bluefs_replay_extent_invariants_witness :
    ((∀ e ∈ regionAcc.state.allocated_extents, ∃ a ∈ regionAcc.state.allocated_areas,
        a.2.1 ≤ e.offset ∧ e.offset + e.length ≤ a.2.1 + a.2.2) ∧
     (∀ e ∈ regionAcc.state.allocated_extents,
        ∀ d ∈ regionAcc.state.deallocated_extents, e.offset ≠ d.offset)) ∧
    (∀ e ∈ ((regionAcc.state.op_file_update 3 7 0 [⟨130, 5, 1⟩]).1).allocated_extents,
       ∀ d ∈ ((regionAcc.state.op_file_update 3 7 0 [⟨130, 5, 1⟩]).1).deallocated_extents,
         e.offset ≠ d.offset) ∧
    (∀ e ∈ ((regionAcc.state.op_file_remove 2).1).allocated_extents,
       ∀ d ∈ ((regionAcc.state.op_file_remove 2).1).deallocated_extents,
         e.offset ≠ d.offset) :=
  ⟨bluefs_replay_extent_invariants.1 ⟨1, 0, 0, []⟩ 4096 regionBlocks regionAcc (by rfl),
   bluefs_replay_extent_invariants.2.1 regionAcc.state 3 7 0 [⟨130, 5, 1⟩] (by decide),
   bluefs_replay_extent_invariants.2.2 regionAcc.state 2 (by decide)⟩

/-- C5: DIR_CREATE is not idempotent in the code.  The guard
`dirname not in self.dirlist` compares the string against `BlueFSDir`
objects and never matches, so a second `DIR_CREATE "db"` appends a
second directory entry named "db". -/
theorem op_dir_create_duplicates :
    ((((initialBlueFS ⟨1, 0, 0, []⟩).op_init.1).op_dir_create "db").1.dirlist
        = [⟨"db", []⟩]) ∧
    (((((initialBlueFS ⟨1, 0, 0, []⟩).op_init.1).op_dir_create "db").1.op_dir_create
        "db").1.dirlist = [⟨"db", []⟩, ⟨"db", []⟩]) :=
  ⟨rfl, rfl⟩

/-- C9 counterexample: decoding a NONE operation against an
uninitialized state succeeds (opcode 0 performs no
`assert(self.initialized)`) and leaves the state unchanged, so it is
not the case that every non-INIT operation fails when uninitialized. -/
theorem applyOp_NONE_uninitialized :
    applyOp (initialBlueFS ⟨1, 0, 0, []⟩) .NONE =
      (initialBlueFS ⟨1, 0, 0, []⟩, none) ∧
    (initialBlueFS ⟨1, 0, 0, []⟩).initialized = false :=
  ⟨rfl, rfl⟩

/-- C9 (amended): every operation other than INIT and NONE fails with
`AssertionError` against an uninitialized state and leaves the state
unchanged; NONE succeeds with no initialization check and changes
nothing; INIT sets `initialized`; and once `initialized` is true it
remains true under every operation. -/
theorem applyOp_initialized_gate (s : BlueFS) (op : BlueFSOp) :
    (op ≠ .INIT → op ≠ .NONE → s.initialized = false →
      applyOp s op = (s, some .assertFail)) ∧
    (applyOp s .NONE = (s, none)) ∧
    ((applyOp s .INIT).1.initialized = true) ∧
    (s.initialized = true → (applyOp s op).1.initialized = true) := by
  refine ⟨?_, rfl, rfl, ?_⟩
  · intro h1 h2 h3
    cases op <;>
      simp [applyOp, BlueFS.op_init, BlueFS.op_alloc_add, BlueFS.op_alloc_rm,
        BlueFS.op_dir_create, BlueFS.op_dir_remove, BlueFS.op_dir_link,
        BlueFS.op_dir_unlink, BlueFS.op_file_update, BlueFS.op_file_remove,
        BlueFS.op_jump, BlueFS.op_jump_seq, h3] at h1 h2 ⊢
  · intro h
    cases op <;>
      simp [applyOp, BlueFS.op_init, BlueFS.op_alloc_add, BlueFS.op_alloc_rm,
        BlueFS.op_dir_create, BlueFS.op_dir_remove, BlueFS.op_dir_link,
        BlueFS.op_dir_unlink, BlueFS.op_file_update, BlueFS.op_file_remove,
        BlueFS.op_jump, BlueFS.op_jump_seq, h] <;>
      split <;> simp [h]

theorem applyOp_initialized_gate_witness :
    (applyOp (initialBlueFS ⟨1, 0, 0, []⟩) (.ALLOC_ADD 1 0 16) =
      (initialBlueFS ⟨1, 0, 0, []⟩, some .assertFail)) ∧
    (applyOp ((initialBlueFS ⟨1, 0, 0, []⟩).op_init.1) (.ALLOC_ADD 1 0 16)).1.initialized
      = true :=
  ⟨(applyOp_initialized_gate (initialBlueFS ⟨1, 0, 0, []⟩) (.ALLOC_ADD 1 0 16)).1
      (by decide) (by decide) rfl,
   (applyOp_initialized_gate ((initialBlueFS ⟨1, 0, 0, []⟩).op_init.1)
      (.ALLOC_ADD 1 0 16)).2.2.2 rfl⟩

/-- C2 counterexample: in the replay of `jumpBlocks` the middle block is
recorded as a skipped transaction, yet its DIR_CREATE is applied: the
resulting directory list is ["db"], whereas the same replay with the
skipped block's operations removed ends with no directories.  Skipped
blocks therefore do mutate the BlueFS state. -/
theorem skipped_block_mutates_state :
    (bluefsReplay ⟨1, 0, 0, []⟩ 1 jumpBlocks).map
        (fun acc => (acc.state.dirlist.map BlueFSDir.dirname,
                     acc.skipped_transactions)) =
      some (["db"], [(1, [.DIR_CREATE "db"])]) ∧
    (bluefsReplay ⟨1, 0, 0, []⟩ 1 jumpBlocksEmptied).map
        (fun acc => (acc.state.dirlist.map BlueFSDir.dirname,
                     acc.skipped_transactions)) =
      some ([], [(1, [])]) :=
  ⟨rfl, rfl⟩

/-- C2 (amended): for an initialized state, JUMP sets `next_offset` to
`offset` iff `next_offset` is currently 0 and otherwise changes nothing;
a block whose `logical_offset` is below `next_offset` is processed as
skipped: it is never recorded in `transactions` (at most in
`skipped_transactions`), but its operations ARE applied to the BlueFS
state exactly as for a non-skipped block. -/
theorem op_jump_and_skip (s : BlueFS) (nseq off : Nat)
    (acc acc2 : ReplayAcc) (lo : Nat) (blk : BlueFSBlock) :
    (s.initialized = true → s.next_offset = 0 →
      s.op_jump nseq off = ({ s with next_offset := off }, none)) ∧
    (s.initialized = true → s.next_offset ≠ 0 →
      s.op_jump nseq off = (s, none)) ∧
    (acc.state.next_offset > lo → processBlock acc lo blk = some acc2 →
      acc2.transactions = acc.transactions ∧
      acc2.state = (applyOps acc.state blk.ops).1 ∧
      (acc2.skipped_transactions = acc.skipped_transactions ++ [(lo, blk.ops)] ∨
       acc2.skipped_transactions = acc.skipped_transactions)) := by
  refine ⟨?_, ?_, ?_⟩
  · intro h h0
    simp [BlueFS.op_jump, h, h0]
  · intro h h0
    simp [BlueFS.op_jump, h, h0]
  · intro hlt hp
    unfold processBlock at hp
    rw [if_pos hlt] at hp
    rcases hap : applyOps acc.state blk.ops with ⟨s2, e⟩
    rw [hap] at hp
    cases e with
    | none =>
      by_cases hok : blk.decodeOk = true
      · simp only [hok] at hp
        simp only [if_true, Option.some.injEq] at hp
        subst hp
        simp [hap]
      · simp only [Bool.not_eq_true] at hok
        simp only [hok] at hp
        simp only [Bool.false_eq_true, if_false, Option.some.injEq] at hp
        subst hp
        simp [hap]
    | some err =>
      cases err with
      | assertFail =>
        simp only [Option.some.injEq] at hp
        subst hp
        simp [hap]
      | notImplemented => simp at hp

theorem op_jump_and_skip_witness :
    ((initialBlueFS ⟨1, 0, 0, []⟩).op_init.1.op_jump 7 42 =
      ({ (initialBlueFS ⟨1, 0, 0, []⟩).op_init.1 with next_offset := 42 }, none)) ∧
    (wAcc2.transactions = wAcc.transactions ∧
     wAcc2.state = (applyOps wAcc.state ([] : List BlueFSOp)).1 ∧
     (wAcc2.skipped_transactions = wAcc.skipped_transactions ++ [(0, ([] : List BlueFSOp))] ∨
      wAcc2.skipped_transactions = wAcc.skipped_transactions)) := by
  have h1 := (op_jump_and_skip ((initialBlueFS ⟨1, 0, 0, []⟩).op_init.1) 7 42
    wAcc wAcc2 0 ⟨[], true⟩).1 rfl rfl
  have h2 := (op_jump_and_skip ((initialBlueFS ⟨1, 0, 0, []⟩).op_init.1) 7 42
    wAcc wAcc2 0 ⟨[], true⟩).2.2 (by decide) (by rfl)
  exact ⟨h1, h2⟩

/-- C10: a `read` whose end would pass the buffer end and a `seek` past
the buffer end fail (IndexError) and leave the cursor (hence the whole
handler) unchanged, while a `read` or `seek` landing exactly on the end
of the buffer succeeds. -/
theorem byteHandler_bounds (h : ByteHandler) (n pos : Nat) :
    (h.p + n > h.length → h.read n = (none, h)) ∧
    (pos > h.length → h.seek pos = (none, h)) ∧
    (h.p + n = h.length →
      h.read n = (some ((h.mybytes.drop h.p).take n), { h with p := h.p + n })) ∧
    (pos = h.length → h.seek pos = (some (), { h with p := pos })) := by
  refine ⟨?_, ?_, ?_, ?_⟩ <;> intro hc <;>
    simp [ByteHandler.read, ByteHandler.seek, ByteHandler.setP, hc]

theorem byteHandler_bounds_witness :
    ((ByteHandler.mk [7, 8] 1).read 3 = (none, ByteHandler.mk [7, 8] 1)) ∧
    ((ByteHandler.mk [7, 8] 1).seek 5 = (none, ByteHandler.mk [7, 8] 1)) ∧
    ((ByteHandler.mk [7, 8] 1).read 1 = (some [8], ByteHandler.mk [7, 8] 2)) ∧
    ((ByteHandler.mk [7, 8] 1).seek 2 = (some (), ByteHandler.mk [7, 8] 2)) := by
  have hb := byteHandler_bounds (ByteHandler.mk [7, 8] 1) 3 5
  have hg := byteHandler_bounds (ByteHandler.mk [7, 8] 1) 1 2
  exact ⟨hb.1 (by decide), hb.2.1 (by decide),
    by simpa using hg.2.2.1 (by decide), by simpa using hg.2.2.2 (by decide)⟩

theorem WFile.write_at_end (f : WFile) (bs : List Nat)
    (h : f.data.length ≤ f.pos) :
    (f.write bs).data = f.data ++ List.replicate (f.pos - f.data.length) 0 ++ bs ∧
    (f.write bs).pos = f.pos + bs.length := by
  unfold WFile.write
  refine ⟨?_, rfl⟩
  by_cases hc : f.data.length < f.pos
  · simp only [hc, if_true]
    have hlen : (f.data ++ List.replicate (f.pos - f.data.length) 0).length = f.pos := by
      simp
      omega
    rw [List.take_of_length_le (by omega), List.drop_eq_nil_of_le (by simp; omega)]
    simp
  · have hq : f.data.length = f.pos := by omega
    simp only [hc, if_false]
    rw [List.take_of_length_le (by omega), List.drop_eq_nil_of_le (by omega)]
    simp [hq]

theorem extractLoop_ordered (image : List Nat) (les : List KVLExtent)
    (f : WFile) (slack md5acc : List Nat)
    (hpos : f.pos = f.data.length)
    (hord : orderedFrom image les f.pos = true) :
    (extractLoop image les f slack md5acc).1.data
      = f.data ++ specAssemble image les f.pos ∧
    (extractLoop image les f slack md5acc).1.pos
      = (extractLoop image les f slack md5acc).1.data.length := by
  induction les generalizing f slack md5acc with
  | nil =>
    simp [extractLoop, specAssemble, hpos]
  | cons le rest ih =>
    simp only [orderedFrom, Bool.and_eq_true, decide_eq_true_eq] at hord
    obtain ⟨hlow, hord2⟩ := hord
    have hw := WFile.write_at_end (f.seek le.logical_offset) ((le.read image).1)
      (by simp [WFile.seek]; omega)
    have hpos2 : ((f.seek le.logical_offset).write (le.read image).1).pos
        = (((f.seek le.logical_offset).write (le.read image).1)).data.length := by
      rw [hw.1, hw.2]
      simp [WFile.seek]
      omega
    have hord3 : orderedFrom image rest
        (((f.seek le.logical_offset).write (le.read image).1)).pos = true := by
      rw [hw.2]
      simpa [WFile.seek] using hord2
    have hih := ih ((f.seek le.logical_offset).write (le.read image).1)
      (slack ++ (le.read image).2) (md5acc ++ (le.read image).1) hpos2 hord3
    unfold extractLoop
    refine ⟨?_, hih.2⟩
    rw [hih.1, hw.1, hw.2]
    simp only [WFile.seek, specAssemble, hpos]
    simp [List.append_assoc]

/-- C3: for an onode whose logical extents are ordered (each starting at
or past the end of the previous contribution), whenever `extract`
returns (the final `assert(write.tell() == self.size)` passes) the body
written has exactly `onode.size` bytes, and equals the in-order
assembly: each extent contributes the first `length` bytes of its blob
content at its logical offset, with zero bytes in the gaps and zero
padding up to `onode.size`. -/
theorem KVONode_extract_exact_size (image : List Nat) (o : KVONode)
    (body slack md5 : List Nat)
    (hord : orderedFrom image o.lextents 0 = true)
    (hx : o.extract image = some (body, slack, md5)) :
    body.length = o.size ∧
    body = specAssemble image o.lextents 0 ++
      List.replicate (o.size - (specAssemble image o.lextents 0).length) 0 := by
  have h0 := extractLoop_ordered image o.lextents ⟨[], 0⟩ [] [] rfl hord
  rcases h0 with ⟨hdata, hpos⟩
  simp only [List.nil_append] at hdata
  unfold KVONode.extract at hx
  dsimp only at hx
  by_cases hlt : (extractLoop image o.lextents ⟨[], 0⟩ [] []).1.pos < o.size
  · have hmiss : ((o.size : Int) - ((extractLoop image o.lextents ⟨[], 0⟩ [] []).1.pos : Int) > 0) := by
      omega
    rw [if_pos hmiss, if_pos hmiss] at hx
    have hw := WFile.write_at_end (extractLoop image o.lextents ⟨[], 0⟩ [] []).1
      (List.replicate (o.size - (extractLoop image o.lextents ⟨[], 0⟩ [] []).1.pos) 0)
      (le_of_eq hpos.symm)
    have hp2 : ((extractLoop image o.lextents ⟨[], 0⟩ [] []).1.write
        (List.replicate (o.size - (extractLoop image o.lextents ⟨[], 0⟩ [] []).1.pos) 0)).pos
        = o.size := by
      rw [hw.2]
      simp
      omega
    rw [if_pos hp2] at hx
    injection hx with hx1
    injection hx1 with hbody hrest
    constructor
    · rw [← hbody, hw.1]
      simp
      omega
    · rw [← hbody, hw.1, ← hpos, hdata]
      simp [← hdata, ← hpos]
  · have hmiss : ¬ ((o.size : Int) - ((extractLoop image o.lextents ⟨[], 0⟩ [] []).1.pos : Int) > 0) := by
      omega
    rw [if_neg hmiss, if_neg hmiss] at hx
    by_cases heq : (extractLoop image o.lextents ⟨[], 0⟩ [] []).1.pos = o.size
    · rw [if_pos heq] at hx
      injection hx with hx1
      injection hx1 with hbody hrest
      constructor
      · rw [← hbody, ← hpos, heq]
      · rw [← hbody, hdata]
        have hlen : (specAssemble image o.lextents 0).length = o.size := by
          rw [← hdata, ← hpos, heq]
        rw [hlen]
        simp
    · rw [if_neg heq] at hx
      exact Option.noConfusion hx

theorem KVONode_extract_exact_size_witness :
    ([1, 2, 3, 0, 0] : List Nat).length = extOnode.size ∧
    ([1, 2, 3, 0, 0] : List Nat) = specAssemble [1, 2, 3] extOnode.lextents 0 ++
      List.replicate (extOnode.size - (specAssemble [1, 2, 3] extOnode.lextents 0).length) 0 :=
  KVONode_extract_exact_size [1, 2, 3] extOnode [1, 2, 3, 0, 0] [] [1, 2, 3, 0, 0]
    (by decide) (by decide)

theorem extentsConcat_cons (osd : List Nat) (e : BlueFSExtent)
    (rest : List BlueFSExtent) :
    extentsConcat osd (e :: rest) =
      readImg osd e.offset e.length ++ extentsConcat osd rest := by
  simp [extentsConcat]

theorem mkfileLoop_spec (osd : List Nat) (extents : List BlueFSExtent) (bsize : Nat)
    (hin : ∀ e ∈ extents, e.offset + e.length ≤ osd.length) :
    (mkfileLoop osd extents bsize).1 = (extentsConcat osd extents).take bsize ∧
    (mkfileLoop osd extents bsize).2.2.1 = (mkfileLoop osd extents bsize).1 ∧
    (mkfileLoop osd extents bsize).2.1 =
      ((extentsConcat osd extents).drop bsize).take
        (mkfileLoop osd extents bsize).2.1.length ∧
    (mkfileLoop osd extents bsize).2.2.2 =
      bsize - (extentsConcat osd extents).length := by
  induction extents generalizing bsize with
  | nil => simp [mkfileLoop, extentsConcat]
  | cons e rest ih =>
    have he : e.offset + e.length ≤ osd.length := hin e (List.mem_cons_self _ _)
    have hin2 : ∀ x ∈ rest, x.offset + x.length ≤ osd.length :=
      fun x hx => hin x (List.mem_cons_of_mem _ hx)
    have hchunk : (readImg osd e.offset e.length).length = e.length := by
      simp [readImg]
      omega
    rw [extentsConcat_cons]
    by_cases h0 : bsize = 0
    · subst h0
      simp [mkfileLoop]
    · by_cases hle : bsize ≤ e.length
      · have hslen : (readImg osd (e.offset + bsize) (e.length - bsize)).length
            = e.length - bsize := by
          simp [readImg]
          omega
        have hcd : (readImg osd e.offset e.length).drop bsize
            = readImg osd (e.offset + bsize) (e.length - bsize) := by
          simp [readImg, List.drop_take, List.drop_drop, Nat.add_comm]
        simp only [mkfileLoop, h0, if_false, hle, if_true]
        refine ⟨?_, by trivial, ?_, ?_⟩
        · rw [List.take_append_eq_append_take, hchunk,
            Nat.sub_eq_zero_of_le hle, List.take_zero, List.append_nil]
          simp [readImg, List.take_take, Nat.min_def, hle]
        · have hdrop : (readImg osd e.offset e.length ++ extentsConcat osd rest).drop bsize
              = readImg osd (e.offset + bsize) (e.length - bsize) ++
                extentsConcat osd rest := by
            rw [List.drop_append_eq_append_drop, hchunk, Nat.sub_eq_zero_of_le hle,
              List.drop_zero, hcd]
          rw [hdrop]
          exact (List.take_left _ _).symm
        · have hl : (readImg osd e.offset e.length ++ extentsConcat osd rest).length
              = e.length + (extentsConcat osd rest).length := by
            simp [hchunk]
          rw [hl]
          omega
      · have hih := ih (bsize - e.length) hin2
        simp only [mkfileLoop, h0, if_false, hle, if_true]
        refine ⟨?_, ?_, ?_, ?_⟩
        · have htake : (readImg osd e.offset e.length ++ extentsConcat osd rest).take bsize
              = readImg osd e.offset e.length ++
                (extentsConcat osd rest).take (bsize - e.length) := by
            rw [List.take_append_eq_append_take, hchunk,
              List.take_of_length_le
                (show (readImg osd e.offset e.length).length ≤ bsize by omega)]
          rw [htake, hih.1]
        · rw [hih.2.1]
        · have hdrop : (readImg osd e.offset e.length ++ extentsConcat osd rest).drop bsize
              = (extentsConcat osd rest).drop (bsize - e.length) := by
            rw [List.drop_append_eq_append_drop, hchunk,
              List.drop_eq_nil_of_le
                (show (readImg osd e.offset e.length).length ≤ bsize by omega)]
            simp [hchunk]
          rw [hdrop]
          exact hih.2.2.1
        · rw [hih.2.2.2]
          have hl : (readImg osd e.offset e.length ++ extentsConcat osd rest).length
              = e.length + (extentsConcat osd rest).length := by
            simp [hchunk]
          rw [hl]
          omega

/-- C4 (amended): whenever `mkfile` succeeds (its final
`assert(bsize == 0)` passes) on extents lying inside the image, the body
file holds exactly the first `size` bytes of the concatenation of the
extent contents, the digest input is exactly the body, and the slack
file is an initial segment of the remaining bytes — namely the tail of
the extent in which the body ends — rather than all remaining bytes of
all extents; success moreover forces `size` to be at most the total
extent length. -/
theorem mkfile_body_and_slack (osd : List Nat) (f : BlueFSFile)
    (body slack md5 : List Nat)
    (hin : ∀ e ∈ f.extents, e.offset + e.length ≤ osd.length)
    (hx : f.mkfile osd = some (body, slack, md5)) :
    body = (extentsConcat osd f.extents).take f.size ∧
    md5 = body ∧
    slack = ((extentsConcat osd f.extents).drop f.size).take slack.length ∧
    f.size ≤ (extentsConcat osd f.extents).length := by
  have hs := mkfileLoop_spec osd f.extents f.size hin
  unfold BlueFSFile.mkfile at hx
  dsimp only at hx
  by_cases hz : (mkfileLoop osd f.extents f.size).2.2.2 = 0
  · rw [if_pos hz] at hx
    simp only [Option.some.injEq, Prod.mk.injEq] at hx
    obtain ⟨hb, hsl, hm⟩ := hx
    refine ⟨?_, ?_, ?_, ?_⟩
    · rw [← hb, hs.1]
    · rw [← hm, ← hb, hs.2.1]
    · rw [← hsl, hs.2.2.1]
      rw [List.length_take, List.take_eq_take]
      omega
    · have := hs.2.2.2
      rw [hz] at this
      omega
  · rw [if_neg hz] at hx
    exact Option.noConfusion hx

/-- C4 counterexample: a file of size 1 with two 2-byte extents over the
image [1,2,3,4].  The code's slack file holds only [2] (the tail of the
first extent, where the body ends); the bytes [3,4] of the second extent
are never read because the loop breaks once `bsize` reaches 0, so the
slack does not contain all remaining bytes within the extents. -/
theorem mkfile_slack_not_all_remaining :
    (BlueFSFile.mk 7 1 0 [⟨0, 2, 1⟩, ⟨2, 2, 1⟩]).mkfile [1, 2, 3, 4]
      = some ([1], [2], [1]) ∧
    (extentsConcat [1, 2, 3, 4] [⟨0, 2, 1⟩, ⟨2, 2, 1⟩]).drop 1 = [2, 3, 4] ∧
    ([2] : List Nat) ≠ [2, 3, 4] :=
  ⟨rfl, rfl, by decide⟩

theorem mkfile_body_and_slack_witness :
    ([1] : List Nat) = (extentsConcat [1, 2, 3, 4] [⟨0, 2, 1⟩, ⟨2, 2, 1⟩]).take 1 ∧
    ([1] : List Nat) = [1] ∧
    ([2] : List Nat) =
      ((extentsConcat [1, 2, 3, 4] [⟨0, 2, 1⟩, ⟨2, 2, 1⟩]).drop 1).take 1 ∧
    1 ≤ (extentsConcat [1, 2, 3, 4] [⟨0, 2, 1⟩, ⟨2, 2, 1⟩]).length := by
  have h := mkfile_body_and_slack [1, 2, 3, 4]
    (BlueFSFile.mk 7 1 0 [⟨0, 2, 1⟩, ⟨2, 2, 1⟩]) [1] [2] [1]
    (by decide) (by rfl)
  exact h

theorem assocFind_assocSet_self {α β : Type} [DecidableEq α]
    (m : List (α × β)) (k : α) (v : β) :
    assocFind (assocSet m k v) k = some v := by
  induction m with
  | nil => simp [assocSet, assocFind]
  | cons p rest ih =>
    rcases p with ⟨k0, v0⟩
    by_cases h : k0 = k
    · simp [assocSet, assocFind, h]
    · simp [assocSet, assocFind, h, ih]

theorem assocFind_assocSet_ne {α β : Type} [DecidableEq α]
    (m : List (α × β)) (k k2 : α) (v : β) (h : k2 ≠ k) :
    assocFind (assocSet m k v) k2 = assocFind m k2 := by
  have h2 : ¬ k = k2 := fun hc => h hc.symm
  induction m with
  | nil => simp [assocSet, assocFind, h2]
  | cons p rest ih =>
    rcases p with ⟨k0, v0⟩
    by_cases h0 : k0 = k
    · subst h0
      simp [assocSet, assocFind, h2]
    · simp [assocSet, assocFind, h0, ih]

theorem assocFind_dsInsertRow_same (ds : DataSets) (pfx : Char)
    (k : List Char) (val : RowVal) (bucket : List (List Char × RowVal))
    (h : assocFind ds pfx = some bucket) :
    assocFind (dsInsertRow ds pfx k val) pfx = some (assocSet bucket k val) := by
  induction ds with
  | nil => simp [assocFind] at h
  | cons b rest ih =>
    rcases b with ⟨p0, m0⟩
    by_cases hp : p0 = pfx
    · subst hp
      simp only [assocFind, if_pos] at h
      simp only [eq_self_iff_true, if_true, Option.some.injEq] at h
      subst h
      simp only [dsInsertRow, List.map_cons]
      simp [assocFind]
    · simp only [assocFind, if_neg hp] at h
      simp only [dsInsertRow, List.map_cons]
      rw [if_neg hp]
      simp only [assocFind, if_neg hp]
      exact ih h

theorem assocFind_dsInsertRow_other (ds : DataSets) (pfx pfx2 : Char)
    (k : List Char) (val : RowVal) (h : pfx2 ≠ pfx) :
    assocFind (dsInsertRow ds pfx k val) pfx2 = assocFind ds pfx2 := by
  have h2 : ¬ pfx = pfx2 := fun hc => h hc.symm
  induction ds with
  | nil => simp [dsInsertRow, assocFind]
  | cons b rest ih =>
    rcases b with ⟨p0, m0⟩
    by_cases hp : p0 = pfx
    · subst hp
      simp only [dsInsertRow, List.map_cons, if_pos rfl]
      simp only [assocFind, if_neg h2]
      exact ih
    · simp only [dsInsertRow, List.map_cons]
      rw [if_neg hp]
      by_cases hq : p0 = pfx2
      · subst hq
        simp [assocFind]
      · simp only [assocFind, if_neg hq]
        exact ih

theorem dsFind_dsInsertRow_ne (ds : DataSets) (pfx : Char) (k K : List Char)
    (val : RowVal) (bucket : List (List Char × RowVal))
    (hbucket : assocFind ds pfx = some bucket) (hk : k ≠ K) :
    dsFind (dsInsertRow ds pfx k val) K = dsFind ds K := by
  unfold dsFind
  cases hK : prefixOfKey K with
  | none => rfl
  | some pfxK =>
    dsimp only
    by_cases hpp : pfxK = pfx
    · subst hpp
      rw [assocFind_dsInsertRow_same ds pfxK k val bucket hbucket, hbucket]
      have := assocFind_assocSet_ne bucket k K val (fun hc => hk hc.symm)
      simp [this]
    · rw [assocFind_dsInsertRow_other ds pfx pfxK k val hpp]

theorem dsFind_dsInsertRow_self (ds : DataSets) (pfx : Char) (k : List Char)
    (val : RowVal) (bucket : List (List Char × RowVal))
    (hpfx : prefixOfKey k = some pfx)
    (hbucket : assocFind ds pfx = some bucket) :
    dsFind (dsInsertRow ds pfx k val) k = some val := by
  unfold dsFind
  rw [hpfx]
  dsimp only
  rw [assocFind_dsInsertRow_same ds pfx k val bucket hbucket]
  simp [assocFind_assocSet_self]

theorem processLine_dsFind_ne (ds ds2 : DataSets) (l : DumpLine) (K : List Char)
    (h : processLine ds l = some ds2) (hk : l.k ≠ K) :
    dsFind ds2 K = dsFind ds K := by
  unfold processLine at h
  split at h
  · exact Option.noConfusion h
  · split at h
    · exact Option.noConfusion h
    · rename_i pfx hpfx
      split at h
      · exact Option.noConfusion h
      · rename_i bucket hbucket
        split at h
        · rename_i old hold
          split at h
          · injection h with h2
            subst h2
            rfl
          · injection h with h2
            subst h2
            exact dsFind_dsInsertRow_ne ds pfx l.k K _ bucket hbucket hk
        · injection h with h2
          subst h2
          exact dsFind_dsInsertRow_ne ds pfx l.k K _ bucket hbucket hk

theorem processLine_dsFind_self (ds ds2 : DataSets) (l : DumpLine)
    (h : processLine ds l = some ds2) :
    (ds2 = ds ∧ ∃ old, dsFind ds l.k = some old ∧ l.seq < old.2.1) ∨
    (dsFind ds2 l.k = some (l.v, l.seq, l.t) ∧
      ∀ old, dsFind ds l.k = some old → old.2.1 ≤ l.seq) := by
  unfold processLine at h
  split at h
  · exact Option.noConfusion h
  · split at h
    · exact Option.noConfusion h
    · rename_i pfx hpfx
      split at h
      · exact Option.noConfusion h
      · rename_i bucket hbucket
        have hfind : dsFind ds l.k = assocFind bucket l.k := by
          unfold dsFind
          rw [hpfx]
          dsimp only
          rw [hbucket]
        split at h
        · rename_i old hold
          split at h
          · rename_i hgt
            injection h with h2
            subst h2
            left
            exact ⟨rfl, old, by rw [hfind, hold], hgt⟩
          · rename_i hngt
            injection h with h2
            subst h2
            right
            refine ⟨dsFind_dsInsertRow_self ds pfx l.k _ bucket hpfx hbucket, ?_⟩
            intro old2 hold2
            rw [hfind, hold] at hold2
            injection hold2 with h3
            subst h3
            omega
        · rename_i hnone
          injection h with h2
          subst h2
          right
          refine ⟨dsFind_dsInsertRow_self ds pfx l.k _ bucket hpfx hbucket, ?_⟩
          intro old2 hold2
          rw [hfind, hnone] at hold2
          exact Option.noConfusion hold2

set_option maxHeartbeats 2000000 in
theorem emptyDatasets_buckets (pfx : Char) (bucket : List (List Char × RowVal))
    (h : assocFind emptyDatasets pfx = some bucket) : bucket = [] := by
  simp only [emptyDatasets, assocFind] at h
  split_ifs at h <;> (injection h with h2; exact h2.symm)

theorem dsFind_empty (K : List Char) : dsFind emptyDatasets K = none := by
  unfold dsFind
  cases hK : prefixOfKey K with
  | none => rfl
  | some pfx =>
    dsimp only
    cases hb : assocFind emptyDatasets pfx with
    | none => rfl
    | some bucket =>
      rw [emptyDatasets_buckets pfx bucket hb]
      rfl

theorem loadLines_max (lines : List DumpLine) (K : List Char) :
    ∀ ds0 ds : DataSets, loadLines lines ds0 = some ds →
    ((dsFind ds K = dsFind ds0 K ∧
      ∀ l ∈ lines, l.k = K → ∃ old, dsFind ds0 K = some old ∧ l.seq < old.2.1) ∨
     (∃ l, l ∈ lines ∧ l.k = K ∧ dsFind ds K = some (l.v, l.seq, l.t) ∧
       (∀ l2 ∈ lines, l2.k = K → l2.seq ≤ l.seq) ∧
       (∀ old, dsFind ds0 K = some old → old.2.1 ≤ l.seq))) := by
  induction lines with
  | nil =>
    intro ds0 ds h
    simp only [loadLines, Option.some.injEq] at h
    subst h
    left
    exact ⟨rfl, by simp⟩
  | cons l rest ih =>
    intro ds0 ds h
    simp only [loadLines] at h
    split at h
    · exact Option.noConfusion h
    · rename_i ds1 hpl
      have HI := ih ds1 ds h
      by_cases hk : l.k = K
      · subst hk
        have HS := processLine_dsFind_self ds0 ds1 l hpl
        rcases HS with ⟨hds1, old, holdf, hlt⟩ | ⟨hfound, holdle⟩
        · subst hds1
          rcases HI with ⟨heq, hall⟩ | ⟨l2, hm, hk2, hf, hmax, hold⟩
          · left
            refine ⟨heq, ?_⟩
            intro l2 hl2 hk2
            rcases List.mem_cons.1 hl2 with rfl | hl2r
            · exact ⟨old, holdf, hlt⟩
            · exact hall l2 hl2r hk2
          · right
            refine ⟨l2, List.mem_cons_of_mem _ hm, hk2, hf, ?_, hold⟩
            intro l3 hl3 hk3
            rcases List.mem_cons.1 hl3 with rfl | hl3r
            · have := hold old holdf
              omega
            · exact hmax l3 hl3r hk3
        · rcases HI with ⟨heq, hall⟩ | ⟨l2, hm, hk2, hf, hmax, hold⟩
          · right
            refine ⟨l, List.mem_cons_self _ _, rfl, heq.trans hfound, ?_, ?_⟩
            · intro l3 hl3 hk3
              rcases List.mem_cons.1 hl3 with rfl | hl3r
              · exact le_refl _
              · obtain ⟨old2, hf2, hlt2⟩ := hall l3 hl3r hk3
                rw [hfound] at hf2
                injection hf2 with h4
                subst h4
                exact le_of_lt hlt2
            · intro old0 hold0
              exact holdle old0 hold0
          · right
            have hle : l.seq ≤ l2.seq := by
              have := hold (l.v, l.seq, l.t) hfound
              simpa using this
            refine ⟨l2, List.mem_cons_of_mem _ hm, hk2, hf, ?_, ?_⟩
            · intro l3 hl3 hk3
              rcases List.mem_cons.1 hl3 with rfl | hl3r
              · exact hle
              · exact hmax l3 hl3r hk3
            · intro old0 hold0
              have := holdle old0 hold0
              omega
      · have hne := processLine_dsFind_ne ds0 ds1 l K hpl hk
        rcases HI with ⟨heq, hall⟩ | ⟨l2, hm, hk2, hf, hmax, hold⟩
        · left
          refine ⟨heq.trans hne, ?_⟩
          intro l2 hl2 hk2
          rcases List.mem_cons.1 hl2 with rfl | hl2r
          · exact absurd hk2 hk
          · obtain ⟨old, hf2, hlt2⟩ := hall l2 hl2r hk2
            rw [hne] at hf2
            exact ⟨old, hf2, hlt2⟩
        · right
          refine ⟨l2, List.mem_cons_of_mem _ hm, hk2, hf, ?_, ?_⟩
          · intro l3 hl3 hk3
            rcases List.mem_cons.1 hl3 with rfl | hl3r
            · exact absurd hk3 hk
            · exact hmax l3 hl3r hk3
          · intro old0 hold0
            exact hold old0 (hne.trans hold0)

/-- C6: whenever the dump loads successfully and a key `K` occurs on at
least one line, with all lines for `K` carrying distinct sequence
numbers, the loaded dataset retains for `K` exactly the value, sequence
and type of the (unique) line with the highest `seq` — in any line
order. -/
theorem datasets_highest_seq (lines : List DumpLine) (ds : DataSets) (K : List Char)
    (hds : RDBKV_datasets lines = some ds)
    (hK : ∃ l ∈ lines, l.k = K)
    (hdist : List.Pairwise (fun a b => a.seq ≠ b.seq)
      (lines.filter (fun l => decide (l.k = K)))) :
    ∃ l, l ∈ lines ∧ l.k = K ∧ dsFind ds K = some (l.v, l.seq, l.t) ∧
      (∀ l2 ∈ lines, l2.k = K → l2.seq ≤ l.seq) ∧
      (∀ l2 ∈ lines, l2.k = K → l2.seq = l.seq → l2 = l) := by
  have H := loadLines_max lines K emptyDatasets ds hds
  rcases H with ⟨heq, hall⟩ | ⟨l, hm, hk, hf, hmax, hold⟩
  · obtain ⟨l0, hl0, hk0⟩ := hK
    obtain ⟨old, hfind, hlt⟩ := hall l0 hl0 hk0
    rw [dsFind_empty] at hfind
    exact Option.noConfusion hfind
  · refine ⟨l, hm, hk, hf, hmax, ?_⟩
    intro l2 hl2 hk2 hseq
    by_contra hne2
    have hmem1 : l ∈ lines.filter (fun x => decide (x.k = K)) :=
      List.mem_filter.2 ⟨hm, by simp [hk]⟩
    have hmem2 : l2 ∈ lines.filter (fun x => decide (x.k = K)) :=
      List.mem_filter.2 ⟨hl2, by simp [hk2]⟩
    have hsym : Symmetric (fun a b : DumpLine => a.seq ≠ b.seq) :=
      fun a b hab hc => hab hc.symm
    exact List.Pairwise.forall hsym hdist hmem2 hmem1 hne2 hseq

theorem datasets_highest_seq_witness :
    ∃ l, l ∈ dumpLines ∧ l.k = dumpKey ∧
      dsFind dumpOut dumpKey = some (l.v, l.seq, l.t) ∧
      (∀ l2 ∈ dumpLines, l2.k = dumpKey → l2.seq ≤ l.seq) ∧
      (∀ l2 ∈ dumpLines, l2.k = dumpKey → l2.seq = l.seq → l2 = l) :=
  datasets_highest_seq dumpLines dumpOut dumpKey (by rfl) (by decide) (by decide)

